import Mathlib

/-!
Verification of the link resolution and existence-checking engine of a dead-link
detector for HTML site trees (src/tree.rs, src/html.rs, src/main.rs).

Paths are modelled as Unix-style OS strings (`String`/`List Char`), with
`Path::components`, `PathBuf::push`, `PathBuf::pop` and `Path::strip_prefix`
embedded from the Rust standard library semantics the source relies on.
On Unix no `Component::Prefix` exists, so the prefix branches of the source
are inert and are not modelled.
-/

set_option autoImplicit false

namespace RelCheck

/-- Split a character list at `/` separators, keeping empty pieces
(`splitSlashes "a//b" = ["a", "", "b"]`, `splitSlashes "" = [""]`). -/
def splitSlashes : List Char → List (List Char)
  | [] => [[]]
  | c :: cs =>
    if c = '/' then [] :: splitSlashes cs
    else
      match splitSlashes cs with
      | [] => [[c]]
      | s :: rest => (c :: s) :: rest

/-- The non-empty segments of a path string, as produced by Rust
`Path::components` after separator normalization. -/
def rawSegs (cs : List Char) : List (List Char) :=
  (splitSlashes cs).filter (fun s => s ≠ [])

/-- Rust `std::path::Component`, minus the Windows-only `Prefix` variant. -/
inductive PComp where
  | rootDir
  | curDir
  | parentDir
  | normal (seg : List Char)
  deriving DecidableEq, Repr

/-- Classify a non-`.` segment: `..` is `ParentDir`, the rest are `Normal`. -/
def mkComp (seg : List Char) : PComp :=
  if seg = ['.', '.'] then .parentDir else .normal seg

/-- The non-leading components of a path: `.` segments dropped, the rest
classified by `mkComp`. -/
def bodyComps (raw : List (List Char)) : List PComp :=
  (raw.filter (fun s => s ≠ ['.'])).map mkComp

/-- Rust `Path::components` on Unix: a leading `/` yields `RootDir`; `.`
segments are dropped, except that a relative path starting with a `.` segment
keeps a single leading `CurDir`; `..` becomes `ParentDir`. -/
def componentsOf (cs : List Char) : List PComp :=
  if cs.head? = some '/' then .rootDir :: bodyComps (rawSegs cs)
  else if (rawSegs cs).head? = some ['.'] then .curDir :: bodyComps (rawSegs cs).tail
  else bodyComps (rawSegs cs)

/-- The OS-string spelling of a single component. -/
def compStr : PComp → List Char
  | .rootDir => ['/']
  | .curDir => ['.']
  | .parentDir => ['.', '.']
  | .normal seg => seg

/-- Join segments with `/` separators (no leading or trailing separator). -/
def joinSegs : List (List Char) → List Char
  | [] => []
  | [s] => s
  | s :: rest => s ++ '/' :: joinSegs rest

/-- Canonical rendering of a component list back to an OS string. This is the
spelling of the path slices Rust returns from `Path::parent` and
`Path::strip_prefix`; it is byte-identical to Rust's slice on
separator-normalized paths (the only ones these operations receive here) and
component-equal in general, which is all `PathBuf` comparisons observe. -/
def renderComps (comps : List PComp) : List Char :=
  if comps.head? = some .rootDir then '/' :: joinSegs (comps.tail.map compStr)
  else joinSegs (comps.map compStr)

/-- Rust `PathBuf::push` on Unix: an absolute argument replaces `self`;
otherwise a separator is inserted when `self` is non-empty and does not
already end in one, and the argument is appended. -/
def pushChars (self p : List Char) : List Char :=
  if p.head? = some '/' then p
  else if self = [] then p
  else if self.getLast? = some '/' then self ++ p
  else self ++ '/' :: p

/-- Rust `Path::parent`: drop the final component; `none` when the path is
empty or consists only of a root. -/
def parentChars (cs : List Char) : Option (List Char) :=
  (componentsOf cs).getLast?.bind fun c =>
    if c = .rootDir then none
    else some (renderComps (componentsOf cs).dropLast)

/-- Rust `PathBuf::pop`: truncate to `parent` when it exists, else no-op. -/
def popChars (cs : List Char) : List Char :=
  (parentChars cs).getD cs

/-- Rust `Path::strip_prefix("/")` followed by `unwrap_or`: remove a leading
root component when there is one, otherwise keep the path unchanged. -/
def stripRootChars (cs : List Char) : List Char :=
  if (componentsOf cs).head? = some .rootDir then renderComps (componentsOf cs).tail
  else cs

/-- The component-walk loop body of `normalize_path` (src/tree.rs lines
90-104, identical in src/main.rs): push `/` on `RootDir`, skip `.`, pop on
`..`, push normal segments. -/
def normStep (ret : List Char) : PComp → List Char
  | .rootDir => pushChars ret ['/']
  | .curDir => ret
  | .parentDir => popChars ret
  | .normal seg => pushChars ret seg

/-- `normalize_path` (src/tree.rs lines 81-106, identical in src/main.rs
lines 141-166) on the underlying character list. On Unix the `Prefix` peek
never fires, so the accumulator starts empty. -/
def normChars (cs : List Char) : List Char :=
  stripRootChars ((componentsOf cs).foldl normStep [])

/-- `normalize_path` at the `String` boundary. -/
def normalize_path (s : String) : String :=
  ⟨normChars s.data⟩

/-- A link to an HTML file, with optional fragment: `HtmlFileLink`
(src/tree.rs) and the identical `RelativeLink` (src/html.rs) and
`(PathBuf, Option<&str>)` of `parse_path_fragment` (src/main.rs). -/
structure HtmlFileLink where
  path : String
  fragment : Option String
  deriving DecidableEq, Repr

/-- Leftmost-first match of the regex `^(.*?)(?:#([^#]*))?$` shared by
`HtmlFileLink::new`, `RelativeLink::new` and `parse_path_fragment`.
The lazy group 1 (`.` does not match a newline) is grown from the left; at
each position the optional group is tried before being skipped, so the match
succeeds at the first `#` whose suffix is `#`-free — that is, at the last
`#` — with group 2 the suffix; a newline in group 1's span kills the match,
and the end of the string matches with group 2 absent. -/
def regexCaps (acc : List Char) : List Char → Option (List Char × Option (List Char))
  | [] => some (acc.reverse, none)
  | c :: rest =>
    if c = '#' ∧ ∀ x ∈ rest, x ≠ '#' then some (acc.reverse, some rest)
    else if c = '\n' then none
    else regexCaps (c :: acc) rest

/-- `HtmlFileLink::new` (src/tree.rs lines 20-30), identical to
`RelativeLink::new` (src/html.rs lines 56-66) and
`FileCache::parse_path_fragment` (src/main.rs lines 107-121): path is
capture 1, fragment is capture 2 filtered to be non-empty. `none` models the
`panic!("Failed to parse path")` branch taken when the regex does not match.
(The preceding `to_str().expect("Invalid path")` step cannot fail here since
the model's strings are always valid text.) -/
def HtmlFileLink.new (s : String) : Option HtmlFileLink :=
  (regexCaps [] s.data).map fun pf =>
    { path := ⟨pf.1⟩
      fragment := (pf.2.map fun f => (⟨f⟩ : String)).filter (fun f => !f.isEmpty) }

/-- The relevant contents of an HTML document: `HtmlInfo` (src/html.rs). -/
structure HtmlInfo where
  relative_hrefs : List String
  external_hrefs : List String
  ids : List String
  deriving DecidableEq, Repr

/-- The Rust corpus index `HashMap<PathBuf, HtmlInfo>` modelled as an
association list. `PathBuf` equality and hashing go through the component
iterator, so lookups compare components; the Rust map's arbitrary iteration
order is stood in for by the list order. -/
abbrev HtmlFiles := List (String × HtmlInfo)

/-- `PathBuf` key equality: equality of the component sequences. -/
def pathKeyEq (a b : String) : Bool :=
  decide (componentsOf a.data = componentsOf b.data)

/-- `HashMap::get`: the entry whose key is path-equal to `k`, if any. -/
def HtmlFiles.get (m : HtmlFiles) (k : String) : Option HtmlInfo :=
  (m.find? fun e => pathKeyEq e.1 k).map (·.2)

/-- `HtmlFiles::contains` (src/tree.rs lines 53-65): direct lookup, then the
`index.html` directory-index fallback, then—when a fragment is present—the
membership check against the document's ids. `FileCache::contains`
(src/main.rs lines 122-138) is the same check after `parse_path_fragment`. -/
def HtmlFiles.contains (m : HtmlFiles) (l : HtmlFileLink) : Bool :=
  let path_with_index : String := ⟨pushChars l.path.data "index.html".data⟩
  match (m.get l.path).orElse (fun _ => m.get path_with_index) with
  | some info =>
    match l.fragment with
    | some fragment => info.ids.contains fragment
    | none => true
  | none => false

/-- Map a fallible function over a list, failing if any element fails: the
effect of a panic inside an iterator chain that is later collected. -/
def listMapOpt {α β : Type} (f : α → Option β) : List α → Option (List β)
  | [] => some []
  | a :: as =>
    match f a, listMapOpt f as with
    | some b, some bs => some (b :: bs)
    | _, _ => none

/-- The per-document body of `missing_file_links` (src/tree.rs lines 69-76):
join each relative href onto the document's parent directory, normalize,
parse into a link, and keep the links the corpus does not contain. `none`
models the `expect("No parent")` panic and the parse panic. -/
def docMissing (m : HtmlFiles) (p : String) (info : HtmlInfo) : Option (List HtmlFileLink) :=
  match parentChars p.data with
  | none => none
  | some par =>
    (listMapOpt
      (fun href => HtmlFileLink.new ⟨normChars (pushChars par href.data)⟩)
      info.relative_hrefs).map
        (List.filter fun l => !(m.contains l))

/-- `HtmlFiles::missing_file_links` (src/tree.rs lines 66-78): flat-map the
per-document missing links over the whole index. -/
def missing_file_links (m : HtmlFiles) : Option (List HtmlFileLink) :=
  (listMapOpt (fun e => docMissing m e.1 e.2) m).map List.flatten

/-- The segment carried by a `Normal` component, if that is what it is. -/
def normalSeg : PComp → Option (List Char)
  | .rootDir => none
  | .curDir => none
  | .parentDir => none
  | .normal seg => some seg

/-- Rust `Path::file_name`: the final component when it is a normal segment. -/
def fileNameChars (cs : List Char) : Option (List Char) :=
  (componentsOf cs).getLast?.bind normalSeg

/-- Split a character list at its last `.`: `some (before, after)` with
`after` dot-free, or `none` when no `.` occurs. -/
def splitLastDot : List Char → Option (List Char × List Char)
  | [] => none
  | c :: cs =>
    match splitLastDot cs with
    | some (b, a) => some (c :: b, a)
    | none => if c = '.' then some ([], cs) else none

/-- Rust `Path::extension`: the part of the file name after its last `.`,
absent when the name has no `.` or its only `.` is the leading character. -/
def extensionChars (cs : List Char) : Option (List Char) :=
  (fileNameChars cs).bind fun name =>
    (splitLastDot name).bind fun ba =>
      if ba.1 = [] then none else some ba.2

/-- `HashMap::insert`: replace the value of the entry whose key is path-equal
(keeping the stored key, as Rust's map does), else add a new entry. -/
def mapInsert (m : HtmlFiles) (k : String) (v : HtmlInfo) : HtmlFiles :=
  if m.any (fun e => pathKeyEq e.1 k) then
    m.map (fun e => if pathKeyEq e.1 k then (e.1, v) else e)
  else
    m ++ [(k, v)]

/-- `HtmlFiles::new` (src/tree.rs lines 36-52) / `FileCache::build`
(src/main.rs lines 86-102), with the collaborators abstracted: `walk` is the
stream the recursive directory walk yields across all roots, each file given
by its root-relative path (the `strip_prefix(directory)` result) together
with the `HtmlInfo` its text parses to. Exactly the entries whose path has
extension `html` are inserted, in walk order. -/
def buildIndex (walk : List (String × HtmlInfo)) : HtmlFiles :=
  walk.foldl
    (fun m e =>
      if extensionChars e.1.data = some "html".data then mapInsert m e.1 e.2
      else m)
    []

/-- Modelled from the spec: `url::Url::parse` is an external collaborator
("Relative vs. external is decided by whether the href string parses as an
absolute URL"). The url crate's `ParseError` has several variants; the source
only ever compares against `RelativeUrlWithoutBase`, so the model keeps that
variant and `EmptyHost` as a representative of the others (the error of
`Url::parse("http://")`). -/
inductive UrlParseError where
  | relativeUrlWithoutBase
  | emptyHost
  deriving DecidableEq, Repr

/-- The partition predicate of `HtmlInfo::parse`:
`Url::parse(href) == Err(ParseError::RelativeUrlWithoutBase)`. -/
def isRelErr : Except UrlParseError Unit → Bool
  | .error .relativeUrlWithoutBase => true
  | _ => false

/-- `HtmlInfo::parse` (src/html.rs lines 26-46) with its collaborators
abstracted: the HTML extraction (the scraper crate) yields the document's
href attribute values (`hrefs`, in document order) and id attribute values
(`ids`), and `urlParse` stands for `url::Url::parse`. The hrefs are
partitioned: those whose parse result equals
`Err(RelativeUrlWithoutBase)` become `relative_hrefs`, all others become
`external_hrefs`, order preserved. -/
def HtmlInfo.parse (urlParse : String → Except UrlParseError Unit)
    (hrefs ids : List String) : HtmlInfo :=
  { relative_hrefs := hrefs.filter fun h => isRelErr (urlParse h)
    external_hrefs := hrefs.filter fun h => !(isRelErr (urlParse h))
    ids := ids }

/-! ### Claim-side definitions (written from the spec's words, for the
refinement claims) and concrete instances used by witnesses -/

/-- The fragment step of the resolver as the claim words it: `true` without a
fragment, membership in the document's ids with one. -/
def fragOk (info : HtmlInfo) : Option String → Bool
  | none => true
  | some f => info.ids.contains f

/-- The containment check as the claim states it: look up the path directly;
if absent, look up the path joined with `index.html`; if neither lookup finds
a `DocumentInfo`, return `false`; otherwise apply the fragment step. -/
def claimContains (m : HtmlFiles) (l : HtmlFileLink) : Bool :=
  match m.get l.path with
  | some info => fragOk info l.fragment
  | none =>
    match m.get ⟨pushChars l.path.data "index.html".data⟩ with
    | some info => fragOk info l.fragment
    | none => false

/-- The Path Normalizer step as the claim words it: `.` components are
dropped, `..` pops the most recently pushed real segment and is silently
discarded when none exists, ordinary segments are appended in order, and the
root marker contributes nothing to the final (root-stripped) result. -/
def claimNormStep (segs : List (List Char)) : PComp → List (List Char)
  | .rootDir => segs
  | .curDir => segs
  | .parentDir => segs.dropLast
  | .normal seg => segs ++ [seg]

/-- The normalized result as the claim describes it: the surviving ordinary
segments, joined as a relative path. -/
def claimNormalize (s : String) : String :=
  ⟨joinSegs ((componentsOf s.data).foldl claimNormStep [])⟩

/-- Erase every document's external hrefs, leaving everything
`missing_file_links` reads untouched. -/
def stripExternals (m : HtmlFiles) : HtmlFiles :=
  m.map fun e => (e.1, { e.2 with external_hrefs := [] })

/-- The concrete corpus of claim C3: one document at `a/b.html` whose only
relative href is `../c.html`; `c.html` is not indexed. -/
def exMap : HtmlFiles := [("a/b.html", ⟨["../c.html"], [], []⟩)]

/-- Modelled from the spec: a concrete instance of the abstract URL parser,
matching the url crate's documented behavior on three representative hrefs —
a scheme-less relative reference (`RelativeUrlWithoutBase`), an absolute URL
that parses, and `"http://"`, which fails with `EmptyHost` rather than with
`RelativeUrlWithoutBase`. -/
def urlParse0 : String → Except UrlParseError Unit := fun h =>
  if h = "page.html" then .error .relativeUrlWithoutBase
  else if h = "http://" then .error .emptyHost
  else .ok ()

/-- A path is absolute for `PathBuf::push` purposes iff it starts with `/`. -/
def renderPB (isAbs : Bool) (segs : List (List Char)) : List Char :=
  if isAbs then '/' :: joinSegs segs else joinSegs segs

/-- A well-formed path segment: non-empty and separator-free. -/
def cleanSeg (seg : List Char) : Prop :=
  seg ≠ [] ∧ '/' ∉ seg

/-- A segment as produced for `Normal` components: additionally neither `.`
nor `..`. -/
def fullSeg (seg : List Char) : Prop :=
  seg ≠ [] ∧ '/' ∉ seg ∧ seg ≠ ['.'] ∧ seg ≠ ['.', '.']

/-- A component that can appear after the leading root or current-directory
marker: `..`, or a normal segment that is clean and not `.`/`..`. -/
def goodTail (c : PComp) : Prop :=
  c = .parentDir ∨ ∃ seg, c = .normal seg ∧ fullSeg seg

/-! ### Lemmas about the link regex -/

theorem regexCaps_hash {f : List Char} (hf : ∀ x ∈ f, x ≠ '#') :
    ∀ (p acc : List Char), (∀ x ∈ p, x ≠ '\n') →
    regexCaps acc (p ++ '#' :: f) = some (acc.reverse ++ p, some f) := by
  intro p
  induction p with
  | nil =>
    intro acc _
    show regexCaps acc ('#' :: f) = some (acc.reverse ++ [], some f)
    rw [List.append_nil]
    simp only [regexCaps]
    split
    · rfl
    · rename_i hcond
      exact (hcond ⟨by trivial, hf⟩).elim
  | cons c p ih =>
    intro acc hp
    have h1 : ¬(c = '#' ∧ ∀ x ∈ p ++ '#' :: f, x ≠ '#') := by
      rintro ⟨-, h⟩
      exact h '#' (by simp) rfl
    have h2 : c ≠ '\n' := hp c (List.mem_cons_self _ _)
    show regexCaps acc (c :: (p ++ '#' :: f)) = _
    simp only [regexCaps]
    rw [if_neg h1, if_neg h2,
      ih (c :: acc) (fun x hx => hp x (List.mem_cons_of_mem _ hx))]
    simp

theorem regexCaps_noHash :
    ∀ (s acc : List Char), (∀ x ∈ s, x ≠ '#') → (∀ x ∈ s, x ≠ '\n') →
    regexCaps acc s = some (acc.reverse ++ s, none) := by
  intro s
  induction s with
  | nil =>
    intro acc _ _
    simp [regexCaps]
  | cons c s ih =>
    intro acc h1 h2
    have hc : ¬(c = '#' ∧ ∀ x ∈ s, x ≠ '#') := by
      rintro ⟨hc, -⟩
      exact h1 c (List.mem_cons_self _ _) hc
    have hn : c ≠ '\n' := h2 c (List.mem_cons_self _ _)
    simp only [regexCaps, if_neg hc, if_neg hn]
    rw [ih (c :: acc) (fun x hx => h1 x (List.mem_cons_of_mem _ hx))
      (fun x hx => h2 x (List.mem_cons_of_mem _ hx))]
    simp

theorem regexCaps_isSome :
    ∀ (s acc : List Char), (∀ x ∈ s, x ≠ '\n') → (regexCaps acc s).isSome = true := by
  intro s
  induction s with
  | nil =>
    intro acc _
    simp [regexCaps]
  | cons c s ih =>
    intro acc hs
    by_cases h : c = '#' ∧ ∀ x ∈ s, x ≠ '#'
    · simp [regexCaps, if_pos h]
    · have hn : c ≠ '\n' := hs c (List.mem_cons_self _ _)
      simp only [regexCaps, if_neg h, if_neg hn]
      exact ih (c :: acc) (fun x hx => hs x (List.mem_cons_of_mem _ hx))

/-! ### Claim theorems: link reference construction -/

/-- C1 counterexample: the regex splits `"foo#bar#baz"` at the last `#`,
giving path `"foo#bar"` and fragment `"baz"`, not path `"foo"` with fragment
`"bar#baz"` as the first-`#` rule of the claim would. -/
theorem C1_counterexample :
    HtmlFileLink.new "foo#bar#baz" = some ⟨"foo#bar", some "baz"⟩ ∧
    HtmlFileLink.new "foo#bar#baz" ≠ some ⟨"foo", some "bar#baz"⟩ := by
  decide

/-- C1 (amended): link-reference construction splits at the LAST `#`: for an
input written as `p ++ "#" ++ f` with `f` free of `#` (so the shown `#` is the
last one) and `p` free of newlines (so the regex matches), the path is `p` and
the fragment is `f` when non-empty, `none` when empty; an input without any
`#` (and without newlines) is all path with no fragment. -/
theorem C1_link_splits_at_last_hash :
    (∀ p f : String, (∀ x ∈ f.data, x ≠ '#') → (∀ x ∈ p.data, x ≠ '\n') →
      HtmlFileLink.new (p ++ "#" ++ f) =
        some ⟨p, if f = "" then none else some f⟩) ∧
    (∀ s : String, (∀ x ∈ s.data, x ≠ '#') → (∀ x ∈ s.data, x ≠ '\n') →
      HtmlFileLink.new s = some ⟨s, none⟩) := by
  constructor
  · intro p f hf hp
    have hdata : (p ++ "#" ++ f).data = p.data ++ '#' :: f.data := by
      rw [String.data_append, String.data_append]
      simp
    unfold HtmlFileLink.new
    rw [hdata, regexCaps_hash hf p.data [] hp]
    simp only [Option.map_some', List.reverse_nil, List.nil_append]
    have hmkp : (⟨p.data⟩ : String) = p := rfl
    have hmkf : (⟨f.data⟩ : String) = f := rfl
    by_cases hf0 : f = ""
    · subst hf0
      simp only [hmkp, hmkf, if_pos rfl]
      rfl
    · have hne : f.isEmpty = false :=
        Bool.eq_false_iff.mpr (fun h => hf0 ((String.isEmpty_iff f).mp h))
      simp [hmkp, hmkf, Option.filter, hne, hf0]
  · intro s h1 h2
    unfold HtmlFileLink.new
    rw [regexCaps_noHash s.data [] h1 h2]
    rfl

/-- Witness for C1: the amended split rule evaluated at `"foo#bar" ++ "#" ++
"baz"` and at the hash-free `"plain"`. -/
theorem C1_link_splits_at_last_hash_witness :
    HtmlFileLink.new ("foo#bar" ++ "#" ++ "baz") = some ⟨"foo#bar", some "baz"⟩ ∧
    HtmlFileLink.new "plain" = some ⟨"plain", none⟩ := by
  constructor
  · have h := C1_link_splits_at_last_hash.1 "foo#bar" "baz" (by decide) (by decide)
    simpa using h
  · exact C1_link_splits_at_last_hash.2 "plain" (by decide) (by decide)

/-- C6 counterexample: `"a\nb"` is valid text, yet the regex (whose `.` does
not match a newline) fails to match, so construction panics. -/
theorem C6_counterexample : HtmlFileLink.new "a\nb" = none := by
  decide

/-- C6 (amended): construction never fails on valid text free of newlines; it
does fail (panics) on valid text containing a newline outside the fragment,
as the counterexample shows. -/
theorem C6_no_panic_without_newline :
    ∀ s : String, (∀ x ∈ s.data, x ≠ '\n') → ∃ l, HtmlFileLink.new s = some l := by
  intro s hs
  have h := regexCaps_isSome s.data [] hs
  rw [Option.isSome_iff_exists] at h
  obtain ⟨pf, hpf⟩ := h
  exact ⟨{ path := ⟨pf.1⟩,
           fragment := (pf.2.map fun f => (⟨f⟩ : String)).filter (fun f => !f.isEmpty) },
    by unfold HtmlFileLink.new; rw [hpf]; rfl⟩

/-- Witness for C6: construction succeeds on the newline-free `"foo#bar"`. -/
theorem C6_no_panic_without_newline_witness :
    ∃ l, HtmlFileLink.new "foo#bar" = some l :=
  C6_no_panic_without_newline "foo#bar" (by decide)

/-! ### Claim theorems: the containment check -/

/-- C2: `contains` coincides with the claim's two-step lookup followed by the
fragment membership check, for every corpus index and link. -/
theorem C2_contains_refines_claim :
    ∀ (m : HtmlFiles) (l : HtmlFileLink), m.contains l = claimContains m l := by
  intro m l
  unfold HtmlFiles.contains claimContains
  cases h1 : m.get l.path with
  | some info =>
    cases l.fragment <;> simp [h1, Option.orElse, fragOk]
  | none =>
    cases h2 : m.get ⟨pushChars l.path.data "index.html".data⟩ with
    | some info =>
      cases l.fragment <;> simp [h1, h2, Option.orElse, fragOk]
    | none =>
      simp [h1, h2, Option.orElse]

/-- C9: for a link with the empty path (as parsed from an href like
`"#frag"`), when the empty path is not a key, `contains` falls back to the
key `index.html`: with fragment `f` it holds exactly when a document is
indexed under `index.html` and `f` is among its ids — the containing document
itself plays no role. -/
theorem C9_empty_path_resolves_to_index_html :
    (∀ (m : HtmlFiles) (f : String), m.get "" = none →
      (m.contains ⟨"", some f⟩ = true ↔
        ∃ info, m.get "index.html" = some info ∧ info.ids.contains f = true)) ∧
    HtmlFileLink.new "#frag" = some ⟨"", some "frag"⟩ := by
  constructor
  · intro m f hnone
    have hkey : (⟨pushChars ("" : String).data "index.html".data⟩ : String) = "index.html" := rfl
    unfold HtmlFiles.contains
    rw [show (⟨"", some f⟩ : HtmlFileLink).path = "" from rfl]
    rw [hkey, hnone]
    cases h2 : m.get "index.html" with
    | some info => simp [Option.orElse, h2]
    | none => simp [Option.orElse, h2]
  · decide

/-- Witness for C9: a corpus whose only key is `index.html` with id `frag`
satisfies the fallback resolution for the empty-path link. -/
theorem C9_empty_path_resolves_to_index_html_witness :
    HtmlFiles.contains [("index.html", ⟨[], [], ["frag"]⟩)] ⟨"", some "frag"⟩ = true :=
  (C9_empty_path_resolves_to_index_html.1 [("index.html", ⟨[], [], ["frag"]⟩)] "frag"
    (by decide)).mpr ⟨⟨[], [], ["frag"]⟩, by decide, by decide⟩

/-! ### Lemmas about path segments -/

theorem splitSlashes_sep_free : ∀ {s : List Char}, '/' ∉ s → splitSlashes s = [s] := by
  intro s
  induction s with
  | nil => intro _; rfl
  | cons c cs ih =>
    intro h
    have hc : ¬(c = '/') := fun hc => h (by rw [hc]; exact List.mem_cons_self _ _)
    simp only [splitSlashes, if_neg hc, ih (fun hm => h (List.mem_cons_of_mem _ hm))]

theorem splitSlashes_append :
    ∀ {s : List Char} (q : List Char), '/' ∉ s →
    splitSlashes (s ++ '/' :: q) = s :: splitSlashes q := by
  intro s
  induction s with
  | nil =>
    intro q _
    simp [splitSlashes]
  | cons c cs ih =>
    intro q h
    have hc : ¬(c = '/') := fun hc => h (by rw [hc]; exact List.mem_cons_self _ _)
    simp only [List.cons_append, splitSlashes, if_neg hc, List.append_eq,
      ih q (fun hm => h (List.mem_cons_of_mem _ hm))]

theorem mem_splitSlashes_sep_free :
    ∀ (cs : List Char) (t : List Char), t ∈ splitSlashes cs → '/' ∉ t := by
  intro cs
  induction cs with
  | nil =>
    intro t ht
    simp only [splitSlashes, List.mem_singleton] at ht
    subst ht
    simp
  | cons c cs ih =>
    intro t ht
    by_cases hc : c = '/'
    · subst hc
      simp only [splitSlashes, eq_self_iff_true, if_true, List.mem_cons] at ht
      rcases ht with h1 | h2
      · subst h1; simp
      · exact ih t h2
    · simp only [splitSlashes, if_neg hc] at ht
      cases hsp : splitSlashes cs with
      | nil =>
        rw [hsp] at ht
        simp only [List.mem_singleton] at ht
        subst ht
        intro hmem
        rcases List.mem_cons.mp hmem with h' | h'
        · exact hc h'.symm
        · simp at h'
      | cons s rest =>
        rw [hsp] at ht
        rcases List.mem_cons.mp ht with h | h
        · subst h
          intro hmem
          rcases List.mem_cons.mp hmem with h' | h'
          · exact hc h'.symm
          · exact ih s (by rw [hsp]; exact List.mem_cons_self _ _) h'
        · exact ih t (by rw [hsp]; exact List.mem_cons_of_mem _ h)

theorem rawSegs_joinSegs :
    ∀ {segs : List (List Char)}, (∀ s ∈ segs, cleanSeg s) →
    rawSegs (joinSegs segs) = segs := by
  intro segs
  induction segs with
  | nil => intro _; rfl
  | cons s rest ih =>
    intro h
    have hs := h s (List.mem_cons_self _ _)
    have hrest := ih (fun x hx => h x (List.mem_cons_of_mem _ hx))
    cases rest with
    | nil =>
      show rawSegs s = [s]
      unfold rawSegs
      rw [splitSlashes_sep_free hs.2]
      simp [List.filter, hs.1]
    | cons t rest' =>
      show rawSegs (s ++ '/' :: joinSegs (t :: rest')) = s :: t :: rest'
      unfold rawSegs at hrest ⊢
      rw [splitSlashes_append _ hs.2, List.filter_cons, if_pos (by simpa using hs.1), hrest]

theorem joinSegs_head_ne_sep {segs : List (List Char)} (h : ∀ s ∈ segs, cleanSeg s) :
    (joinSegs segs).head? ≠ some '/' := by
  cases segs with
  | nil => simp [joinSegs]
  | cons s rest =>
    obtain ⟨hne, hsep⟩ := h s (List.mem_cons_self _ _)
    cases s with
    | nil => exact absurd rfl hne
    | cons c s' =>
      have hc : c ≠ '/' := fun hc => hsep (by rw [hc]; exact List.mem_cons_self _ _)
      cases rest with
      | nil => simpa [joinSegs] using hc
      | cons t rest' => simpa [joinSegs] using hc

theorem joinSegs_getLast_ne_sep :
    ∀ {segs : List (List Char)}, (∀ s ∈ segs, cleanSeg s) → segs ≠ [] →
    joinSegs segs ≠ [] ∧ (joinSegs segs).getLast? ≠ some '/' := by
  intro segs
  induction segs with
  | nil => intro _ h; exact absurd rfl h
  | cons s rest ih =>
    intro h _
    obtain ⟨hne, hsep⟩ := h s (List.mem_cons_self _ _)
    cases rest with
    | nil =>
      refine ⟨hne, fun hlast => ?_⟩
      have hmem : '/' ∈ s.getLast? := by simpa [joinSegs] using hlast
      obtain ⟨hne', heq⟩ := List.mem_getLast?_eq_getLast hmem
      exact hsep (heq ▸ List.getLast_mem hne')
    | cons t rest' =>
      obtain ⟨h1, h2⟩ := ih (fun x hx => h x (List.mem_cons_of_mem _ hx)) (by simp)
      constructor
      · show s ++ '/' :: joinSegs (t :: rest') ≠ []
        simp
      · show (s ++ '/' :: joinSegs (t :: rest')).getLast? ≠ some '/'
        rw [List.getLast?_append_cons]
        cases hj : joinSegs (t :: rest') with
        | nil => exact absurd hj h1
        | cons a l =>
          rw [hj] at h2
          rw [List.getLast?_cons_cons]
          exact h2

theorem joinSegs_append_single {segs : List (List Char)} (t : List Char) (h : segs ≠ []) :
    joinSegs (segs ++ [t]) = joinSegs segs ++ '/' :: t := by
  induction segs with
  | nil => exact absurd rfl h
  | cons s rest ih =>
    cases rest with
    | nil => rfl
    | cons u rest' =>
      show s ++ '/' :: joinSegs ((u :: rest') ++ [t]) = (s ++ '/' :: joinSegs (u :: rest')) ++ '/' :: t
      rw [ih (by simp)]
      simp

theorem splitSlashes_cons_sep (q : List Char) :
    splitSlashes ('/' :: q) = [] :: splitSlashes q := by
  simp [splitSlashes]

theorem rawSegs_cons_sep (q : List Char) : rawSegs ('/' :: q) = rawSegs q := by
  unfold rawSegs
  rw [splitSlashes_cons_sep]
  simp [List.filter_cons]

theorem bodyComps_eq_map_normal {segs : List (List Char)} (h : ∀ s ∈ segs, fullSeg s) :
    bodyComps segs = segs.map .normal := by
  unfold bodyComps
  rw [List.filter_eq_self.mpr (fun a ha => by simpa using (h a ha).2.2.1)]
  exact List.map_congr_left (fun a ha => by unfold mkComp; rw [if_neg (h a ha).2.2.2])

theorem componentsOf_joinSegs {segs : List (List Char)} (h : ∀ s ∈ segs, fullSeg s) :
    componentsOf (joinSegs segs) = segs.map .normal := by
  have hclean : ∀ s ∈ segs, cleanSeg s := fun s hs => ⟨(h s hs).1, (h s hs).2.1⟩
  unfold componentsOf
  rw [if_neg (joinSegs_head_ne_sep hclean), rawSegs_joinSegs hclean]
  cases segs with
  | nil => rfl
  | cons s rest =>
    rw [if_neg (by simpa using (h s (List.mem_cons_self _ _)).2.2.1)]
    exact bodyComps_eq_map_normal h

theorem componentsOf_root_joinSegs {segs : List (List Char)} (h : ∀ s ∈ segs, fullSeg s) :
    componentsOf ('/' :: joinSegs segs) = .rootDir :: segs.map .normal := by
  unfold componentsOf
  simp only [List.head?_cons, if_true]
  rw [rawSegs_cons_sep, rawSegs_joinSegs
    (fun s hs => ⟨(h s hs).1, (h s hs).2.1⟩)]
  rw [bodyComps_eq_map_normal h]

theorem compStr_comp_normal : compStr ∘ PComp.normal = id :=
  funext fun _ => rfl

theorem renderComps_map_normal (segs : List (List Char)) :
    renderComps (segs.map .normal) = joinSegs segs := by
  unfold renderComps
  rw [if_neg (by cases segs <;> simp), List.map_map, compStr_comp_normal, List.map_id]

theorem renderComps_root_map_normal (segs : List (List Char)) :
    renderComps (.rootDir :: segs.map .normal) = '/' :: joinSegs segs := by
  unfold renderComps
  simp only [List.head?_cons, if_true]
  simp only [List.tail_cons]
  rw [List.map_map, compStr_comp_normal, List.map_id]

theorem getLast?_cons_ne_nil {α : Type} (a : α) {l : List α} (h : l ≠ []) :
    (a :: l).getLast? = l.getLast? := by
  cases l with
  | nil => exact absurd rfl h
  | cons b l' => exact List.getLast?_cons_cons

theorem pushChars_renderPB {segs : List (List Char)} {seg : List Char}
    (hsegs : ∀ s ∈ segs, cleanSeg s) (hseg : cleanSeg seg) (isAbs : Bool) :
    pushChars (renderPB isAbs segs) seg = renderPB isAbs (segs ++ [seg]) := by
  obtain ⟨hne, hsep⟩ := hseg
  have hheadseg : seg.head? ≠ some '/' := by
    cases seg with
    | nil => simp
    | cons c s' =>
      simp only [List.head?_cons, Ne, Option.some.injEq]
      exact fun hc => hsep (by rw [hc]; exact List.mem_cons_self _ _)
  unfold pushChars renderPB
  cases isAbs with
  | true =>
    simp only [if_true]
    rw [if_neg hheadseg, if_neg (by simp)]
    cases segs with
    | nil =>
      simp [joinSegs]
    | cons t rest =>
      obtain ⟨h1, h2⟩ :=
        joinSegs_getLast_ne_sep hsegs (by simp)
      rw [if_neg ?hlast]
      case hlast =>
        rw [getLast?_cons_ne_nil '/' h1]
        exact h2
      rw [joinSegs_append_single seg (by simp)]
      simp
  | false =>
    simp only [if_false, Bool.false_eq_true]
    rw [if_neg hheadseg]
    cases segs with
    | nil =>
      simp [joinSegs]
    | cons t rest =>
      obtain ⟨h1, h2⟩ :=
        joinSegs_getLast_ne_sep hsegs (by simp)
      rw [if_neg h1, if_neg h2, joinSegs_append_single seg (by simp)]

theorem popChars_renderPB {segs : List (List Char)} (h : ∀ s ∈ segs, fullSeg s)
    (isAbs : Bool) :
    popChars (renderPB isAbs segs) = renderPB isAbs segs.dropLast := by
  cases isAbs with
  | true =>
    have hcomps : componentsOf (renderPB true segs) = .rootDir :: segs.map .normal :=
      componentsOf_root_joinSegs h
    unfold popChars parentChars
    rw [hcomps]
    cases segs with
    | nil => rfl
    | cons s rest =>
      have hmapne : (s :: rest).map PComp.normal ≠ [] := by simp
      have hlast : (s :: rest).getLast? = some ((s :: rest).getLast (by simp)) :=
        List.getLast?_eq_getLast_of_ne_nil (by simp)
      rw [getLast?_cons_ne_nil _ hmapne, List.getLast?_map, hlast]
      simp only [Option.map_some', Option.some_bind]
      rw [if_neg (by simp), List.dropLast_cons_of_ne_nil hmapne, ← List.map_dropLast,
        renderComps_root_map_normal]
      rfl
  | false =>
    have hcomps : componentsOf (renderPB false segs) = segs.map .normal :=
      componentsOf_joinSegs h
    unfold popChars parentChars
    rw [hcomps]
    cases segs with
    | nil => rfl
    | cons s rest =>
      have hlast : (s :: rest).getLast? = some ((s :: rest).getLast (by simp)) :=
        List.getLast?_eq_getLast_of_ne_nil (by simp)
      rw [List.getLast?_map, hlast]
      simp only [Option.map_some', Option.some_bind]
      rw [if_neg (by simp), ← List.map_dropLast, renderComps_map_normal]
      rfl

theorem mem_rawSegs_clean (cs : List Char) : ∀ t ∈ rawSegs cs, cleanSeg t := by
  intro t ht
  rw [rawSegs, List.mem_filter] at ht
  exact ⟨by simpa using ht.2, mem_splitSlashes_sep_free cs t ht.1⟩

theorem bodyComps_goodTail {raw : List (List Char)} (h : ∀ t ∈ raw, cleanSeg t) :
    ∀ c ∈ bodyComps raw, goodTail c := by
  intro c hc
  unfold bodyComps at hc
  rw [List.mem_map] at hc
  obtain ⟨seg, hseg, rfl⟩ := hc
  rw [List.mem_filter] at hseg
  obtain ⟨hmem, hdot⟩ := hseg
  unfold mkComp
  by_cases hdd : seg = ['.', '.']
  · rw [if_pos hdd]
    exact Or.inl rfl
  · rw [if_neg hdd]
    exact Or.inr ⟨seg, rfl, (h seg hmem).1, (h seg hmem).2, by simpa using hdot, hdd⟩

theorem componentsOf_structure (cs : List Char) :
    ∃ pre t, componentsOf cs = pre ++ t ∧
      (pre = [] ∨ pre = [PComp.rootDir] ∨ pre = [PComp.curDir]) ∧
      ∀ c ∈ t, goodTail c := by
  unfold componentsOf
  by_cases hr : cs.head? = some '/'
  · rw [if_pos hr]
    exact ⟨[.rootDir], bodyComps (rawSegs cs), rfl, Or.inr (Or.inl rfl),
      bodyComps_goodTail (mem_rawSegs_clean cs)⟩
  · rw [if_neg hr]
    by_cases hd : (rawSegs cs).head? = some ['.']
    · rw [if_pos hd]
      exact ⟨[.curDir], bodyComps (rawSegs cs).tail, rfl, Or.inr (Or.inr rfl),
        bodyComps_goodTail (fun t ht => mem_rawSegs_clean cs t (List.mem_of_mem_tail ht))⟩
    · rw [if_neg hd]
      exact ⟨[], bodyComps (rawSegs cs), by simp, Or.inl rfl,
        bodyComps_goodTail (mem_rawSegs_clean cs)⟩

theorem foldl_normStep_renderPB :
    ∀ (t : List PComp), (∀ c ∈ t, goodTail c) →
    ∀ (isAbs : Bool) (segs : List (List Char)), (∀ s ∈ segs, fullSeg s) →
    t.foldl normStep (renderPB isAbs segs) =
      renderPB isAbs (t.foldl claimNormStep segs) ∧
    ∀ s ∈ t.foldl claimNormStep segs, fullSeg s := by
  intro t
  induction t with
  | nil =>
    intro _ isAbs segs hsegs
    exact ⟨rfl, hsegs⟩
  | cons c t ih =>
    intro hgood isAbs segs hsegs
    have htail := fun x hx => hgood x (List.mem_cons_of_mem c hx)
    rcases hgood c (List.mem_cons_self _ _) with rfl | ⟨seg, rfl, hfull⟩
    · simp only [List.foldl_cons]
      rw [show normStep (renderPB isAbs segs) .parentDir
            = popChars (renderPB isAbs segs) from rfl,
        popChars_renderPB hsegs isAbs]
      exact ih htail isAbs segs.dropLast
        (fun s hs => hsegs s (List.dropLast_subset segs hs))
    · simp only [List.foldl_cons]
      rw [show normStep (renderPB isAbs segs) (.normal seg)
            = pushChars (renderPB isAbs segs) seg from rfl,
        pushChars_renderPB (fun s hs => ⟨(hsegs s hs).1, (hsegs s hs).2.1⟩)
          ⟨hfull.1, hfull.2.1⟩ isAbs]
      refine ih htail isAbs (segs ++ [seg]) (fun s hs => ?_)
      rcases List.mem_append.mp hs with h | h
      · exact hsegs s h
      · rw [List.mem_singleton] at h
        subst h
        exact hfull

theorem stripRootChars_renderPB {segs : List (List Char)} (h : ∀ s ∈ segs, fullSeg s)
    (isAbs : Bool) :
    stripRootChars (renderPB isAbs segs) = joinSegs segs := by
  cases isAbs with
  | true =>
    show stripRootChars ('/' :: joinSegs segs) = joinSegs segs
    unfold stripRootChars
    rw [componentsOf_root_joinSegs h]
    simp only [List.head?_cons, if_true, List.tail_cons]
    exact renderComps_map_normal segs
  | false =>
    show stripRootChars (joinSegs segs) = joinSegs segs
    unfold stripRootChars
    rw [componentsOf_joinSegs h, if_neg (by cases segs <;> simp)]

theorem normChars_claim (cs : List Char) :
    normChars cs = joinSegs ((componentsOf cs).foldl claimNormStep []) ∧
    ∀ s ∈ (componentsOf cs).foldl claimNormStep [], fullSeg s := by
  obtain ⟨pre, t, hcomp, hpre, hgood⟩ := componentsOf_structure cs
  unfold normChars
  rw [hcomp, List.foldl_append, List.foldl_append]
  have h0 : ∀ s ∈ ([] : List (List Char)), fullSeg s := by simp
  rcases hpre with rfl | rfl | rfl
  · simp only [List.foldl_nil]
    obtain ⟨heq, hfull⟩ := foldl_normStep_renderPB t hgood false [] h0
    refine ⟨?_, hfull⟩
    rw [show t.foldl normStep [] = t.foldl normStep (renderPB false []) from rfl, heq,
      stripRootChars_renderPB hfull false]
  · simp only [List.foldl_cons, List.foldl_nil]
    obtain ⟨heq, hfull⟩ := foldl_normStep_renderPB t hgood true [] h0
    refine ⟨?_, hfull⟩
    rw [show t.foldl normStep (normStep [] .rootDir)
          = t.foldl normStep (renderPB true []) from rfl, heq,
      stripRootChars_renderPB hfull true]
    rfl
  · simp only [List.foldl_cons, List.foldl_nil]
    obtain ⟨heq, hfull⟩ := foldl_normStep_renderPB t hgood false [] h0
    refine ⟨?_, hfull⟩
    rw [show t.foldl normStep (normStep [] .curDir)
          = t.foldl normStep (renderPB false []) from rfl, heq,
      stripRootChars_renderPB hfull false]
    rfl

theorem foldl_claimNormStep_normals :
    ∀ (S acc : List (List Char)), (S.map PComp.normal).foldl claimNormStep acc = acc ++ S := by
  intro S
  induction S with
  | nil =>
    intro acc
    simp
  | cons s S ih =>
    intro acc
    simp only [List.map_cons, List.foldl_cons]
    rw [show claimNormStep acc (.normal s) = acc ++ [s] from rfl, ih]
    simp

/-! ### Claim theorems: path normalization -/

/-- C4: `normalize_path` computes exactly the claim's walk — drop `.`, pop the
last pushed segment on `..` (silently discarding a `..` with nothing to pop),
append ordinary segments, and return the root-stripped relative join — and
reproduces the claim's three edge cases. -/
theorem C4_normalize_refines_claim :
    (∀ s : String, normalize_path s = claimNormalize s) ∧
    normalize_path "a/../../b" = "b" ∧
    normalize_path "./a" = "a" ∧
    normalize_path "" = "" := by
  refine ⟨fun s => ?_, by decide, by decide, by decide⟩
  unfold normalize_path claimNormalize
  exact congrArg String.mk (normChars_claim s.data).1

/-- C7: path normalization is idempotent. -/
theorem C7_normalize_idempotent :
    ∀ p : String, normalize_path (normalize_path p) = normalize_path p := by
  intro p
  obtain ⟨h1, hfull⟩ := normChars_claim p.data
  show (⟨normChars (normChars p.data)⟩ : String) = ⟨normChars p.data⟩
  rw [h1]
  congr 1
  obtain ⟨h2, -⟩ := normChars_claim (joinSegs ((componentsOf p.data).foldl claimNormStep []))
  rw [h2, componentsOf_joinSegs hfull, foldl_claimNormStep_normals]
  simp

/-! ### Lemmas about the missing-link enumeration -/

theorem listMapOpt_mem {α β : Type} (f : α → Option β) :
    ∀ {xs : List α} {ys : List β}, listMapOpt f xs = some ys →
    ∀ b, b ∈ ys ↔ ∃ a ∈ xs, f a = some b := by
  intro xs
  induction xs with
  | nil =>
    intro ys h b
    simp only [listMapOpt] at h
    obtain rfl := Option.some.inj h
    simp
  | cons a as ih =>
    intro ys h b
    simp only [listMapOpt] at h
    cases hfa : f a with
    | none =>
      rw [hfa] at h
      simp at h
    | some bv =>
      cases hrec : listMapOpt f as with
      | none =>
        rw [hfa, hrec] at h
        simp at h
      | some bs =>
        rw [hfa, hrec] at h
        obtain rfl := Option.some.inj h
        constructor
        · intro hb
          rcases List.mem_cons.mp hb with rfl | hb
          · exact ⟨a, List.mem_cons_self _ _, hfa⟩
          · obtain ⟨a', ha', hfa'⟩ := (ih hrec b).mp hb
            exact ⟨a', List.mem_cons_of_mem _ ha', hfa'⟩
        · rintro ⟨a', ha', hfa'⟩
          rcases List.mem_cons.mp ha' with rfl | ha'
          · rw [hfa] at hfa'
            obtain rfl := Option.some.inj hfa'
            exact List.mem_cons_self _ _
          · exact List.mem_cons_of_mem _ ((ih hrec b).mpr ⟨a', ha', hfa'⟩)

theorem listMapOpt_forall {α β : Type} (f : α → Option β) :
    ∀ {xs : List α} {ys : List β}, listMapOpt f xs = some ys →
    ∀ a ∈ xs, ∃ b, f a = some b := by
  intro xs
  induction xs with
  | nil =>
    intro ys _ a ha
    simp at ha
  | cons x as ih =>
    intro ys h a ha
    simp only [listMapOpt] at h
    cases hfa : f x with
    | none =>
      rw [hfa] at h
      simp at h
    | some bv =>
      cases hrec : listMapOpt f as with
      | none =>
        rw [hfa, hrec] at h
        simp at h
      | some bs =>
        rcases List.mem_cons.mp ha with rfl | ha
        · exact ⟨bv, hfa⟩
        · exact ih hrec a ha

theorem listMapOpt_map {α γ β : Type} (g : α → γ) (f : γ → Option β) :
    ∀ xs : List α, listMapOpt f (xs.map g) = listMapOpt (fun a => f (g a)) xs := by
  intro xs
  induction xs with
  | nil => rfl
  | cons a as ih =>
    simp only [List.map_cons, listMapOpt, ih]

theorem listMapOpt_congr {α β : Type} {f g : α → Option β} (h : ∀ a, f a = g a) :
    ∀ xs : List α, listMapOpt f xs = listMapOpt g xs := by
  intro xs
  induction xs with
  | nil => rfl
  | cons a as ih =>
    simp only [listMapOpt, h a, ih]

theorem docMissing_mem {m : HtmlFiles} {p : String} {info : HtmlInfo}
    {ls : List HtmlFileLink} (h : docMissing m p info = some ls) (l : HtmlFileLink) :
    l ∈ ls ↔ ∃ par, parentChars p.data = some par ∧
      ∃ href ∈ info.relative_hrefs,
        HtmlFileLink.new ⟨normChars (pushChars par href.data)⟩ = some l ∧
        m.contains l = false := by
  unfold docMissing at h
  cases hpar : parentChars p.data with
  | none =>
    rw [hpar] at h
    simp at h
  | some par =>
    rw [hpar] at h
    simp only at h
    obtain ⟨all, hmap, hfil⟩ := Option.map_eq_some'.mp h
    subst hfil
    constructor
    · intro hl
      rw [List.mem_filter] at hl
      obtain ⟨hmem, hcon⟩ := hl
      obtain ⟨href, hhref, hnew⟩ := (listMapOpt_mem _ hmap l).mp hmem
      exact ⟨par, rfl, href, hhref, hnew, by simpa using hcon⟩
    · rintro ⟨par', hpar', href, hhref, hnew, hcon⟩
      obtain rfl := Option.some.inj hpar'
      rw [List.mem_filter]
      exact ⟨(listMapOpt_mem _ hmap l).mpr ⟨href, hhref, hnew⟩, by simpa using hcon⟩

theorem missing_file_links_mem {m : HtmlFiles} {res : List HtmlFileLink}
    (h : missing_file_links m = some res) (l : HtmlFileLink) :
    l ∈ res ↔ ∃ e ∈ m, ∃ ls, docMissing m e.1 e.2 = some ls ∧ l ∈ ls := by
  unfold missing_file_links at h
  obtain ⟨lss, hmap, hfl⟩ := Option.map_eq_some'.mp h
  subst hfl
  rw [List.mem_flatten]
  constructor
  · rintro ⟨ls, hls, hl⟩
    obtain ⟨e, he, hde⟩ := (listMapOpt_mem _ hmap ls).mp hls
    exact ⟨e, he, ls, hde, hl⟩
  · rintro ⟨e, he, ls, hde, hl⟩
    exact ⟨ls, (listMapOpt_mem _ hmap ls).mpr ⟨e, he, hde⟩, hl⟩

theorem missing_file_links_docs {m : HtmlFiles} {res : List HtmlFileLink}
    (h : missing_file_links m = some res) :
    ∀ e ∈ m, ∃ ls, docMissing m e.1 e.2 = some ls := by
  unfold missing_file_links at h
  obtain ⟨lss, hmap, -⟩ := Option.map_eq_some'.mp h
  exact fun e he => listMapOpt_forall _ hmap e he

/-! ### Claim theorems: missing-link enumeration -/

/-- C3: when the enumeration completes, its output contains exactly the links
obtained by taking every indexed document and every relative href in it,
joining the href onto the document's parent directory, normalizing, parsing,
and keeping the link iff `contains` is false; and on the claim's concrete
corpus — one document at `a/b.html` with href `../c.html` and no `c.html`
indexed — the output is exactly one link, `c.html`. -/
theorem C3_missing_links_characterization :
    (∀ (m : HtmlFiles) (res : List HtmlFileLink), missing_file_links m = some res →
      ∀ l, l ∈ res ↔ ∃ e ∈ m, ∃ par, parentChars e.1.data = some par ∧
        ∃ href ∈ e.2.relative_hrefs,
          HtmlFileLink.new ⟨normChars (pushChars par href.data)⟩ = some l ∧
          m.contains l = false) ∧
    missing_file_links exMap = some [⟨"c.html", none⟩] := by
  constructor
  · intro m res h l
    rw [missing_file_links_mem h l]
    constructor
    · rintro ⟨e, he, ls, hde, hl⟩
      obtain ⟨par, hpar, href, hhref, hnew, hcon⟩ := (docMissing_mem hde l).mp hl
      exact ⟨e, he, par, hpar, href, hhref, hnew, hcon⟩
    · rintro ⟨e, he, par, hpar, href, hhref, hnew, hcon⟩
      obtain ⟨ls, hde⟩ := missing_file_links_docs h e he
      exact ⟨e, he, ls, hde, (docMissing_mem hde l).mpr ⟨par, hpar, href, hhref, hnew, hcon⟩⟩
  · decide

/-- Witness for C3: the characterization instantiated on the claim's concrete
corpus and its single missing link. -/
theorem C3_missing_links_characterization_witness :
    (⟨"c.html", none⟩ : HtmlFileLink) ∈ ([⟨"c.html", none⟩] : List HtmlFileLink) ↔
      ∃ e ∈ exMap, ∃ par, parentChars e.1.data = some par ∧
        ∃ href ∈ e.2.relative_hrefs,
          HtmlFileLink.new ⟨normChars (pushChars par href.data)⟩
            = some ⟨"c.html", none⟩ ∧
          HtmlFiles.contains exMap ⟨"c.html", none⟩ = false :=
  C3_missing_links_characterization.1 exMap [⟨"c.html", none⟩]
    C3_missing_links_characterization.2 ⟨"c.html", none⟩

theorem get_stripExternals (m : HtmlFiles) (k : String) :
    (stripExternals m).get k
      = (m.get k).map (fun i => { i with external_hrefs := [] }) := by
  unfold HtmlFiles.get stripExternals
  induction m with
  | nil => rfl
  | cons e m ih =>
    by_cases hp : pathKeyEq e.1 k
    · simp [List.find?_cons_of_pos, hp]
    · simp only [List.map_cons]
      rw [List.find?_cons_of_neg _ (by simpa using hp),
        List.find?_cons_of_neg _ (by simpa using hp)]
      exact ih

theorem contains_stripExternals (m : HtmlFiles) (l : HtmlFileLink) :
    (stripExternals m).contains l = m.contains l := by
  unfold HtmlFiles.contains
  simp only [get_stripExternals]
  cases m.get l.path with
  | some info =>
    cases l.fragment <;> simp [Option.orElse]
  | none =>
    cases m.get ⟨pushChars l.path.data "index.html".data⟩ with
    | some info => cases l.fragment <;> simp [Option.orElse]
    | none => simp [Option.orElse]

theorem docMissing_stripExternals (m : HtmlFiles) (p : String) (info : HtmlInfo) :
    docMissing (stripExternals m) p { info with external_hrefs := [] }
      = docMissing m p info := by
  unfold docMissing
  cases parentChars p.data with
  | none => rfl
  | some par =>
    have hpred : (fun l => !(stripExternals m).contains l)
        = fun l => !(m.contains l) :=
      funext fun l => by rw [contains_stripExternals]
    simp only [hpred]

/-- C8: erasing every document's external hrefs leaves `missing_file_links`
unchanged — external hrefs never contribute a link — and every link in the
output arises from some document's `relative_hrefs`. -/
theorem C8_externals_never_missing :
    (∀ m : HtmlFiles, missing_file_links (stripExternals m) = missing_file_links m) ∧
    (∀ (m : HtmlFiles) (res : List HtmlFileLink), missing_file_links m = some res →
      ∀ l ∈ res, ∃ e ∈ m, ∃ par, parentChars e.1.data = some par ∧
        ∃ href ∈ e.2.relative_hrefs,
          HtmlFileLink.new ⟨normChars (pushChars par href.data)⟩ = some l) := by
  constructor
  · intro m
    unfold missing_file_links
    have h1 : listMapOpt (fun e => docMissing (stripExternals m) e.1 e.2) (stripExternals m)
        = listMapOpt (fun e => docMissing m e.1 e.2) m := by
      show listMapOpt _ (m.map (fun e => (e.1, { e.2 with external_hrefs := [] }))) = _
      rw [listMapOpt_map]
      exact listMapOpt_congr (fun e => docMissing_stripExternals m e.1 e.2) m
    rw [h1]
  · intro m res h l hl
    obtain ⟨e, he, ls, hde, hls⟩ := (missing_file_links_mem h l).mp hl
    obtain ⟨par, hpar, href, hhref, hnew, -⟩ := (docMissing_mem hde l).mp hls
    exact ⟨e, he, par, hpar, href, hhref, hnew⟩

/-- Witness for C8: on the concrete corpus, the single output link does come
from the document's relative hrefs. -/
theorem C8_externals_never_missing_witness :
    ∃ e ∈ exMap, ∃ par, parentChars e.1.data = some par ∧
      ∃ href ∈ e.2.relative_hrefs,
        HtmlFileLink.new ⟨normChars (pushChars par href.data)⟩
          = some ⟨"c.html", none⟩ :=
  C8_externals_never_missing.2 exMap [⟨"c.html", none⟩] (by decide)
    ⟨"c.html", none⟩ (by decide)

/-! ### Claim theorems: href partition -/

/-- C5 counterexample: the href `"http://"` fails to parse as an absolute URL
(the url crate reports `EmptyHost`), yet the partition places it in
`external_hrefs`, because the code only compares against
`Err(RelativeUrlWithoutBase)`. -/
theorem C5_counterexample :
    "http://" ∈ (HtmlInfo.parse urlParse0 ["page.html", "http://"] []).external_hrefs ∧
    urlParse0 "http://" = .error .emptyHost := by
  constructor
  · decide
  · rfl

/-- C5 (amended): every href in `relative_hrefs` fails to parse as an absolute
URL with precisely the `RelativeUrlWithoutBase` error, and every href in
`external_hrefs` is one whose parse result is anything else — a successful
parse or a different parse error. -/
theorem C5_partition_by_relative_error :
    ∀ (urlParse : String → Except UrlParseError Unit) (hrefs ids : List String),
      (∀ h ∈ (HtmlInfo.parse urlParse hrefs ids).relative_hrefs,
        urlParse h = .error .relativeUrlWithoutBase) ∧
      (∀ h ∈ (HtmlInfo.parse urlParse hrefs ids).external_hrefs,
        urlParse h ≠ .error .relativeUrlWithoutBase) := by
  intro urlParse hrefs ids
  constructor
  · intro h hmem
    unfold HtmlInfo.parse at hmem
    rw [List.mem_filter] at hmem
    obtain ⟨-, hrel⟩ := hmem
    cases hup : urlParse h with
    | ok u => rw [hup] at hrel; simp [isRelErr] at hrel
    | error e =>
      cases e with
      | relativeUrlWithoutBase => rfl
      | emptyHost => rw [hup] at hrel; simp [isRelErr] at hrel
  · intro h hmem heq
    unfold HtmlInfo.parse at hmem
    rw [List.mem_filter] at hmem
    obtain ⟨-, hext⟩ := hmem
    rw [heq] at hext
    simp [isRelErr] at hext

/-- Witness for C5: the partition evaluated on a relative href and on
`"http://"` under the modelled parser. -/
theorem C5_partition_by_relative_error_witness :
    urlParse0 "page.html" = .error .relativeUrlWithoutBase ∧
    urlParse0 "http://" ≠ .error .relativeUrlWithoutBase :=
  ⟨(C5_partition_by_relative_error urlParse0 ["page.html", "http://"] []).1
      "page.html" (by decide),
   (C5_partition_by_relative_error urlParse0 ["page.html", "http://"] []).2
      "http://" (by decide)⟩

/-! ### Claim theorems: corpus index construction -/

theorem mem_mapInsert {m : HtmlFiles} {k : String} {v : HtmlInfo}
    {e : String × HtmlInfo} (he : e ∈ mapInsert m k v) :
    e.1 = k ∨ ∃ w, (e.1, w) ∈ m := by
  unfold mapInsert at he
  by_cases hany : m.any (fun e => pathKeyEq e.1 k)
  · rw [if_pos hany] at he
    rw [List.mem_map] at he
    obtain ⟨e', he', heq⟩ := he
    by_cases hp : pathKeyEq e'.1 k
    · rw [if_pos hp] at heq
      subst heq
      exact Or.inr ⟨e'.2, he'⟩
    · rw [if_neg hp] at heq
      subst heq
      exact Or.inr ⟨e'.2, he'⟩
  · rw [if_neg hany] at he
    rcases List.mem_append.mp he with h | h
    · exact Or.inr ⟨e.2, h⟩
    · rw [List.mem_singleton] at h
      subst h
      exact Or.inl rfl

theorem buildIndex_keys_aux :
    ∀ (walk : List (String × HtmlInfo)) (acc : HtmlFiles),
    (∀ e ∈ acc, extensionChars e.1.data = some "html".data) →
    ∀ e ∈ walk.foldl
      (fun m e =>
        if extensionChars e.1.data = some "html".data then mapInsert m e.1 e.2
        else m)
      acc,
    extensionChars e.1.data = some "html".data := by
  intro walk
  induction walk with
  | nil =>
    intro acc hacc e he
    exact hacc e he
  | cons w walk ih =>
    intro acc hacc e he
    simp only [List.foldl_cons] at he
    by_cases hw : extensionChars w.1.data = some "html".data
    · rw [if_pos hw] at he
      refine ih (mapInsert acc w.1 w.2) (fun e' he' => ?_) e he
      rcases mem_mapInsert he' with h1 | ⟨v', hv'⟩
      · rw [h1]
        exact hw
      · exact hacc (e'.1, v') hv'
    · rw [if_neg hw] at he
      exact ih acc hacc e he

theorem splitLastDot_ne_nil {name : List Char} {ba : List Char × List Char}
    (h : splitLastDot name = some ba) : name ≠ [] := by
  intro hnil
  subst hnil
  simp [splitLastDot] at h

theorem parent_of_extension {cs ext : List Char}
    (h : extensionChars cs = some ext) :
    (∃ name, fileNameChars cs = some name ∧ name ≠ []) ∧
    ∃ par, parentChars cs = some par := by
  unfold extensionChars at h
  obtain ⟨name, hname, hrest⟩ := Option.bind_eq_some.mp h
  obtain ⟨ba, hba, -⟩ := Option.bind_eq_some.mp hrest
  have hnne : name ≠ [] := splitLastDot_ne_nil hba
  refine ⟨⟨name, hname, hnne⟩, ?_⟩
  unfold fileNameChars at hname
  obtain ⟨c, hc, hcseg⟩ := Option.bind_eq_some.mp hname
  unfold parentChars
  rw [hc]
  cases c with
  | rootDir => simp [normalSeg] at hcseg
  | curDir => simp [normalSeg] at hcseg
  | parentDir => simp [normalSeg] at hcseg
  | normal seg =>
    simp only [Option.some_bind]
    rw [if_neg (by simp)]
    exact ⟨_, rfl⟩

/-- C10: every key of an index built from a directory walk has extension
exactly `html`, hence a non-empty file name and a defined parent directory,
so the `expect("No parent")` branch of `missing_file_links` cannot fire on a
built index. -/
theorem C10_build_keys_have_html_extension :
    ∀ (walk : List (String × HtmlInfo)) (e : String × HtmlInfo),
      e ∈ buildIndex walk →
      extensionChars e.1.data = some "html".data ∧
      (∃ name, fileNameChars e.1.data = some name ∧ name ≠ []) ∧
      ∃ par, parentChars e.1.data = some par := by
  intro walk e he
  have hext : extensionChars e.1.data = some "html".data :=
    buildIndex_keys_aux walk [] (by simp) e he
  obtain ⟨hname, hpar⟩ := parent_of_extension hext
  exact ⟨hext, hname, hpar⟩

/-- Witness for C10: a walk containing an html file, a txt file and a bare
`.html` builds an index whose single key satisfies all three conclusions. -/
theorem C10_build_keys_have_html_extension_witness :
    extensionChars ("a/b.html" : String).data = some "html".data ∧
    (∃ name, fileNameChars ("a/b.html" : String).data = some name ∧ name ≠ []) ∧
    ∃ par, parentChars ("a/b.html" : String).data = some par :=
  C10_build_keys_have_html_extension
    [("a/b.html", ⟨[], [], []⟩), ("x.txt", ⟨[], [], []⟩), (".html", ⟨[], [], []⟩)]
    ("a/b.html", ⟨[], [], []⟩) (by decide)

end RelCheck
